import Mathlib

/-!
Shallow embedding of `LTHS.py` (Linear Time Hamming Search) and proofs about it.

Python bit-vectors (unbounded ints) are modelled as `Nat` with the bitwise
operations `|||`, `^^^`, `&&&`, `<<<`, `>>>`.  Python lists of ints are
`List Nat`; Python list indexing (including negative indices and the
`IndexError` on out-of-range access) is modelled by `pyIndex`/`pyGet`/`pySet`
returning `Option`.  Strings are `List Char`.

The mutable tables `P` and `T` of the search stage are threaded through a
`MatchState` record; the search-stage writes only ever target the `T` field,
mirroring the Python code, which never assigns to `P` during `search`.
Inside `search` the indices `j` used on `P` and `T` always satisfy
`j < sigma = P.length = T.length` (established by `LTHS`), so the total
`List.getD`/`List.set` used there coincide with Python indexing.
The only divergence from Python is `m = 0` (empty pattern), where Python's
`range(m-1, n)` would start at `-1`; no claim concerns an empty pattern and
the CLI rejects it.
-/

/-- Resolution of a Python list index `j` against a list of length `len`:
nonnegative indices must be below `len`, negative indices count from the end;
`none` models `IndexError`. -/
def pyIndex (len : Nat) (j : Int) : Option Nat :=
  if 0 ≤ j then
    if j < (len : Int) then some j.toNat else none
  else
    if 0 ≤ (len : Int) + j then some ((len : Int) + j).toNat else none

/-- Python read `l[j]` on a list of naturals. -/
def pyGet (l : List Nat) (j : Int) : Option Nat :=
  (pyIndex l.length j).map fun idx => l.getD idx 0

/-- Python write `l[j] = v` on a list of naturals. -/
def pySet (l : List Nat) (j : Int) (v : Nat) : Option (List Nat) :=
  (pyIndex l.length j).map fun idx => l.set idx v

/-- Index of the first occurrence of `c` in `A`, if any. -/
def firstIdx : List Char → Char → Option Nat
  | [], _ => none
  | a :: A, c => if a = c then some 0 else (firstIdx A c).map (· + 1)

/-- Source `ALPHA(A, c)`: `A.find(c)`, the index of the first occurrence of
letter `c` in the alphabet `A`, or `-1` if not found. -/
def ALPHA (A : List Char) (c : Char) : Int :=
  match firstIdx A c with
  | some j => (j : Int)
  | none => -1

/-- Fuel-indexed helper for `popcount`; with fuel at least `n` it computes
the binary digit sum of `n`. -/
def popcountF : Nat → Nat → Nat
  | _, 0 => 0
  | 0, _ + 1 => 0
  | f + 1, n + 1 => (n + 1) % 2 + popcountF f ((n + 1) / 2)

/-- Source `popcount(n)`: `n.bit_count()`, the number of set bits of `n`. -/
def popcount (n : Nat) : Nat := popcountF n n

/-- Loop body of `initialize_P`, processing the remaining pattern characters,
`i` being the position of the first of them.  Each character does
`j = ALPHA(A, c); P[j] = P[j] | (1 << i)` with Python indexing (no guard on
`j == -1`, so an absent character writes to `P[-1]`, an `IndexError` when
`P` is empty). -/
def initPgo (A : List Char) : List Nat → List Char → Nat → Option (List Nat)
  | P, [], _ => some P
  | P, c :: cs, i =>
    match pyGet P (ALPHA A c) with
    | none => none
    | some v =>
      match pySet P (ALPHA A c) (v ||| (1 <<< i)) with
      | none => none
      | some P1 => initPgo A P1 cs (i + 1)

/-- Source `initialize_P(A, P, p)`: fills in the pattern table `P`. -/
def initialize_P (A : List Char) (P : List Nat) (p : List Char) : Option (List Nat) :=
  initPgo A P p 0

/-- Loop body of `initialize_T`: `for i, c in enumerate(t): if i >= m-2: break;
j = ALPHA(A, c); if j == -1: continue; T[j] = T[j] | (1 << i)`.  The break
condition is compared over `Int`, exactly as Python compares `i >= m-2`. -/
def initTgo (A : List Char) (m : Nat) : List Nat → List Char → Nat → Option (List Nat)
  | T, [], _ => some T
  | T, c :: cs, i =>
    if (i : Int) ≥ (m : Int) - 2 then some T
    else if ALPHA A c = -1 then initTgo A m T cs (i + 1)
    else
      match pyGet T (ALPHA A c) with
      | none => none
      | some v =>
        match pySet T (ALPHA A c) (v ||| (1 <<< i)) with
        | none => none
        | some T1 => initTgo A m T1 cs (i + 1)

/-- Source `initialize_T(A, T, t, m)`: fills in the text table `T`. -/
def initialize_T (A : List Char) (T : List Nat) (t : List Char) (m : Nat) :
    Option (List Nat) :=
  initTgo A m T t 0

/-- State of the search stage: the pattern table `P` and the text table `T`. -/
structure MatchState where
  P : List Nat
  T : List Nat
deriving DecidableEq

/-- One reported match: `report(position, s, t, m)` prints the position, the
number of mismatches and the slice `t[position:position+m]`. -/
structure MatchResult where
  position : Nat
  mismatches : Nat
  matched : List Char
deriving DecidableEq

/-- Source `report`: builds the record printed for one match. -/
def report (position s : Nat) (t : List Char) (m : Nat) : MatchResult :=
  ⟨position, s, (t.drop position).take m⟩

/-- Inner loop of `search` over the alphabet indices `j`:
`diff = (P[j] ^ T[j]) & P[j]; s = s + popcount(diff); T[j] = T[j] >> 1`. -/
def searchInner : MatchState → Nat → List Nat → Nat × MatchState
  | st, s, [] => (s, st)
  | st, s, j :: js =>
    let Pj := st.P.getD j 0
    let Tj := st.T.getD j 0
    let diff := (Pj ^^^ Tj) &&& Pj
    searchInner { st with T := st.T.set j (Tj >>> 1) } (s + popcount diff) js

/-- Head of each `search` step: `x = ALPHA(A, t[i]); if x != -1:
T[x] = T[x] | (1 << m-1)`, appending the newest text character at the high
end of the window. -/
def appendStep (A t : List Char) (m i : Nat) (st : MatchState) : MatchState :=
  let x := ALPHA A (t.getD i ' ')
  if x = -1 then st
  else { st with T := st.T.set x.toNat (st.T.getD x.toNat 0 ||| (1 <<< (m - 1))) }

/-- Outer loop of `search` over the text indices `i`: the append step, then
the inner loop over the alphabet computes `s` and shifts `T`, and finally
`if s <= k: report(i-m+1, s, t, m)`. -/
def searchLoop (A t : List Char) (m k sigma : Nat) :
    List Nat → MatchState → List MatchResult × MatchState
  | [], st => ([], st)
  | i :: is, st =>
    let r := searchInner (appendStep A t m i st) 0 (List.range sigma)
    let rest := searchLoop A t m k sigma is r.2
    if r.1 ≤ k then (report (i + 1 - m) r.1 t m :: rest.1, rest.2) else rest

/-- The text indices visited by `search`: `range(m-1, n)` (for `m ≥ 1`). -/
def searchIndices (m n : Nat) : List Nat := List.range' (m - 1) (n - (m - 1))

/-- Source `search(A, sigma, P, T, t, n, m, k)`: the search stage.  Returns
the emitted matches in emission order together with the final state of the
tables. -/
def search (A : List Char) (sigma : Nat) (P T : List Nat) (t : List Char)
    (n m k : Nat) : List MatchResult × MatchState :=
  searchLoop A t m k sigma (searchIndices m n) ⟨P, T⟩

/-- Source `LTHS(A, p, k, t)`: builds the tables and runs the search.
`none` models an uncaught Python exception (an `IndexError` raised while
building the tables). -/
def LTHS (A p : List Char) (k : Nat) (t : List Char) : Option (List MatchResult) :=
  match initialize_P A (List.replicate A.length 0) p with
  | none => none
  | some P =>
    match initialize_T A (List.replicate A.length 0) t p.length with
    | none => none
    | some T => some (search A A.length P T t t.length p.length k).1

/-- Outcome of the CLI layer: either `sys.exit` with a message (a non-zero
exit status) before the core runs, or the core search's outcome. -/
inductive CLIOutcome where
  | exitError : String → CLIOutcome
  | ran : Option (List MatchResult) → CLIOutcome
deriving DecidableEq

/-- Source `__main__` block after argument parsing: validates the
preconditions and only then invokes `LTHS`. -/
def cliMain (alphabet pat : List Char) (k : Int) (text : List Char) : CLIOutcome :=
  if pat.length > text.length then CLIOutcome.exitError "Pattern is longer than text"
  else if k < 0 ∨ (pat.length : Int) ≤ k then CLIOutcome.exitError "Invalid k-mismatches value"
  else CLIOutcome.ran (LTHS alphabet pat k.toNat text)

/-- Reference Hamming distance between the pattern `p` and a window `w`, as
the claims state it: a position `d` counts as a mismatch whenever either
character is absent from the alphabet or the two characters differ. -/
def hammingRef (A p w : List Char) : Nat :=
  (List.range p.length).countP fun d =>
    !decide (p.getD d ' ' ∈ A) || !decide (w.getD d ' ' ∈ A)
      || decide (p.getD d ' ' ≠ w.getD d ' ')

/-- Modelled from the spec: the brute-force per-character comparison scan of
section 8, listing every alignment position together with its reference
Hamming distance whenever that distance is at most `k`. -/
def bruteSearch (A p : List Char) (k : Nat) (t : List Char) : List (Nat × Nat) :=
  (List.range (t.length + 1 - p.length)).filterMap fun pos =>
    let d := hammingRef A p ((t.drop pos).take p.length)
    if d ≤ k then some (pos, d) else none

/-- Last symbol of the alphabet (the entry Python's index `-1` selects). -/
def lastChar (A : List Char) : Char := A.getD (A.length - 1) ' '

/-- The pattern with every character absent from `A` replaced by the last
symbol of `A`. -/
def patchPattern (A p : List Char) : List Char :=
  p.map fun c => if c ∈ A then c else lastChar A

/-- Index at which a write `P[ALPHA(A, c)] = v` lands when `A` is non-empty:
the first occurrence of `c` in `A`, or — through Python's negative index
`-1` — the last entry of the table. -/
def resolveIdx (A : List Char) (c : Char) : Nat :=
  match firstIdx A c with
  | some j => j
  | none => A.length - 1

/-- Soundness of the text table relative to a window start `off`: a set bit
`d` of `T[j]` only ever records that the text character at absolute position
`off + d` is the alphabet's `j`-th symbol. -/
def WinSound (A t : List Char) (off : Nat) (T : List Nat) : Prop :=
  ∀ j d, Nat.testBit (T.getD j 0) d = true →
    off + d < t.length ∧ t.getD (off + d) ' ' = A.getD j ' '

example : LTHS "ACGT".toList "ACGT".toList 0 "TTACGTTT".toList = some [] := by decide

example : bruteSearch "ACGT".toList "ACGT".toList 0 "TTACGTTT".toList = [(2, 0)] := by decide

example : initialize_T ['A'] [0] ['A'] 2 = some [0] := by decide

example : initialize_P ['A', 'C'] [0, 0] ['A', 'X'] = some [1, 2] := by decide

example : LTHS ['A'] ['X'] 0 ['A'] = some [⟨0, 0, ['A']⟩] := by decide

example : hammingRef ['A'] ['X'] ['A'] = 1 := by decide

example : LTHS ['A'] ['A', 'A'] 1 ['A', 'A', 'A'] =
    some [⟨0, 1, ['A', 'A']⟩, ⟨1, 0, ['A', 'A']⟩] := by decide

example : LTHS ['A', 'A'] ['X'] 0 ['A'] = some [] := by decide

example : LTHS ['A', 'A'] (patchPattern ['A', 'A'] ['X']) 0 ['A'] =
    some [⟨0, 0, ['A']⟩] := by decide

example : initialize_T "ACGT".toList [0, 0, 0, 0] "TTACGTTT".toList 4 = some [0, 0, 0, 3] := by
  decide

/-! ### Helper lemmas: popcount -/

theorem popcountF_congr (n : Nat) : ∀ f g, n ≤ f → n ≤ g → popcountF f n = popcountF g n := by
  induction n using Nat.strong_induction_on with
  | _ n ih =>
    intro f g hf hg
    cases n with
    | zero => cases f <;> cases g <;> rfl
    | succ n =>
      cases f with
      | zero => omega
      | succ f =>
        cases g with
        | zero => omega
        | succ g =>
          have hlt : (n + 1) / 2 < n + 1 := Nat.div_lt_self (Nat.succ_pos n) (by omega)
          simp only [popcountF]
          rw [ih ((n + 1) / 2) hlt f g (by omega) (by omega)]

theorem popcount_pos_eq (n : Nat) (h : 0 < n) : popcount n = n % 2 + popcount (n / 2) := by
  cases n with
  | zero => omega
  | succ n =>
    show popcountF (n + 1) (n + 1) = _
    simp only [popcountF]
    have hle : (n + 1) / 2 ≤ n := by
      have := Nat.div_lt_self (Nat.succ_pos n) (show 1 < 2 by omega)
      omega
    rw [popcountF_congr ((n + 1) / 2) n ((n + 1) / 2) hle (Nat.le_refl _)]
    rfl

theorem card_le_popcount (x : Nat) :
    ∀ S : Finset ℕ, (∀ d ∈ S, Nat.testBit x d = true) → S.card ≤ popcount x := by
  induction x using Nat.strong_induction_on with
  | _ x ih =>
    intro S hS
    rcases Nat.eq_zero_or_pos x with hx | hx
    · subst hx
      have hempty : S = ∅ := Finset.eq_empty_of_forall_not_mem fun d hd => by
        simpa using hS d hd
      simp [hempty]
    · rw [popcount_pos_eq x hx]
      classical
      have hsplit :
          (S.filter (fun d => d = 0)).card + (S.filter (fun d => ¬d = 0)).card = S.card :=
        Finset.filter_card_add_filter_neg_card_eq_card (p := fun d => d = 0)
      have h0 : (S.filter (fun d => d = 0)).card ≤ x % 2 := by
        by_cases hmem : (0 : ℕ) ∈ S
        · have hb := hS 0 hmem
          rw [Nat.testBit_zero] at hb
          have hx2 : x % 2 = 1 := of_decide_eq_true hb
          have hsub : S.filter (fun d => d = 0) ⊆ {0} := by
            intro d hd
            rcases Finset.mem_filter.mp hd with ⟨_, hd0⟩
            simp [hd0]
          calc (S.filter (fun d => d = 0)).card ≤ ({0} : Finset ℕ).card :=
                Finset.card_le_card hsub
            _ = 1 := Finset.card_singleton 0
            _ ≤ x % 2 := by omega
        · have hemp : S.filter (fun d => d = 0) = ∅ := by
            apply Finset.eq_empty_of_forall_not_mem
            intro d hd
            rcases Finset.mem_filter.mp hd with ⟨hdS, hd0⟩
            exact hmem (hd0 ▸ hdS)
          simp [hemp]
      have hcard : ((S.filter (fun d => ¬d = 0)).image (fun d => d - 1)).card =
          (S.filter (fun d => ¬d = 0)).card := by
        apply Finset.card_image_of_injOn
        intro a ha b hb hab
        rcases Finset.mem_coe.mp ha |> Finset.mem_filter.mp with ⟨_, ha0⟩
        rcases Finset.mem_coe.mp hb |> Finset.mem_filter.mp with ⟨_, hb0⟩
        have hab2 : a - 1 = b - 1 := hab
        omega
      have h2 : ((S.filter (fun d => ¬d = 0)).image (fun d => d - 1)).card ≤
          popcount (x / 2) := by
        apply ih (x / 2) (Nat.div_lt_self hx (by omega))
        intro e he
        rcases Finset.mem_image.mp he with ⟨d, hd, rfl⟩
        rcases Finset.mem_filter.mp hd with ⟨hdS, hd0⟩
        have hbit := hS d hdS
        have hd1 : d = (d - 1) + 1 := by omega
        rw [hd1, Nat.testBit_succ] at hbit
        exact hbit
      calc S.card = (S.filter (fun d => d = 0)).card + (S.filter (fun d => ¬d = 0)).card :=
            hsplit.symm
        _ ≤ x % 2 + popcount (x / 2) := Nat.add_le_add h0 (hcard ▸ h2)

/-! ### Helper lemmas: firstIdx and ALPHA -/

theorem firstIdx_lt_length {A : List Char} {c : Char} {j : Nat}
    (h : firstIdx A c = some j) : j < A.length := by
  induction A generalizing j with
  | nil => simp [firstIdx] at h
  | cons a As ih =>
    by_cases hac : a = c
    · rw [firstIdx, if_pos hac] at h
      injection h with h
      subst h
      simp
    · rw [firstIdx, if_neg hac] at h
      cases hf : firstIdx As c with
      | none => rw [hf] at h; simp at h
      | some j1 =>
        rw [hf] at h
        simp only [Option.map_some'] at h
        injection h with h
        subst h
        have := ih hf
        simp only [List.length_cons]
        omega

theorem firstIdx_getD {A : List Char} {c : Char} {j : Nat}
    (h : firstIdx A c = some j) : A.getD j ' ' = c := by
  induction A generalizing j with
  | nil => simp [firstIdx] at h
  | cons a As ih =>
    by_cases hac : a = c
    · rw [firstIdx, if_pos hac] at h
      injection h with h
      subst h
      simpa using hac
    · rw [firstIdx, if_neg hac] at h
      cases hf : firstIdx As c with
      | none => rw [hf] at h; simp at h
      | some j1 =>
        rw [hf] at h
        simp only [Option.map_some'] at h
        injection h with h
        subst h
        simpa using ih hf

theorem firstIdx_none_iff {A : List Char} {c : Char} : firstIdx A c = none ↔ c ∉ A := by
  induction A with
  | nil => simp [firstIdx]
  | cons a As ih =>
    rw [firstIdx]
    by_cases hac : a = c
    · simp [hac]
    · rw [if_neg hac]
      cases hf : firstIdx As c with
      | none =>
        have hnotin : c ∉ As := ih.mp hf
        simp only [Option.map_none', List.mem_cons]
        constructor
        · rintro - (h | h)
          · exact hac h.symm
          · exact hnotin h
        · intro _; trivial
      | some j1 =>
        have hin : c ∈ As := by
          have hg := firstIdx_getD hf
          have hl := firstIdx_lt_length hf
          rw [← hg, List.getD_eq_getElem As ' ' hl]
          exact List.getElem_mem hl
        simp [hin]

theorem ALPHA_eq_neg_one_iff {A : List Char} {c : Char} : ALPHA A c = -1 ↔ c ∉ A := by
  unfold ALPHA
  cases hf : firstIdx A c with
  | none => simpa using firstIdx_none_iff.mp hf
  | some j =>
    simp only []
    constructor
    · intro h; omega
    · intro h
      exact absurd hf (by simp [← firstIdx_none_iff] at h; simp [h])

theorem ALPHA_of_firstIdx {A : List Char} {c : Char} {j : Nat}
    (h : firstIdx A c = some j) : ALPHA A c = (j : Int) := by
  unfold ALPHA
  rw [h]

/-! ### Helper lemmas: list access and Python indexing -/

theorem getD_oob (l : List Nat) (i : Nat) (h : l.length ≤ i) : l.getD i 0 = 0 := by
  rw [List.getD_eq_getElem?_getD, List.getElem?_eq_none h]
  rfl

theorem getD_set_ne (l : List Nat) (i j v : Nat) (h : i ≠ j) :
    (l.set i v).getD j 0 = l.getD j 0 := by
  rw [List.getD_eq_getElem?_getD, List.getD_eq_getElem?_getD, List.getElem?_set_ne h]

theorem getD_set_self (l : List Nat) (i v : Nat) (h : i < l.length) :
    (l.set i v).getD i 0 = v := by
  rw [List.getD_eq_getElem?_getD, List.getElem?_set_self h]
  rfl

theorem getD_replicate_zero (n j : Nat) : (List.replicate n (0 : Nat)).getD j 0 = 0 := by
  rw [List.getD_eq_getElem?_getD]
  cases h : (List.replicate n (0 : Nat))[j]? with
  | none => rfl
  | some v =>
    have hv : v = 0 := List.eq_of_mem_replicate (List.getElem?_mem h)
    rw [hv]
    rfl

theorem pyIndex_of_lt {len j : Nat} (h : j < len) : pyIndex len ((j : Nat) : Int) = some j := by
  unfold pyIndex
  rw [if_pos (by omega), if_pos (by omega)]
  simp

theorem pyIndex_neg_one {len : Nat} (h : 1 ≤ len) : pyIndex len (-1) = some (len - 1) := by
  unfold pyIndex
  rw [if_neg (by omega), if_pos (by omega)]
  congr 1
  omega

theorem pyIndex_ALPHA {A : List Char} (c : Char) (hA : A ≠ []) {len : Nat}
    (hlen : len = A.length) : pyIndex len (ALPHA A c) = some (resolveIdx A c) := by
  cases hf : firstIdx A c with
  | some j =>
    rw [ALPHA_of_firstIdx hf]
    have hj := firstIdx_lt_length hf
    rw [resolveIdx, hf]
    exact pyIndex_of_lt (by omega)
  | none =>
    rw [ALPHA, hf]
    rw [resolveIdx, hf]
    have hlen1 : 1 ≤ len := by
      cases A with
      | nil => exact absurd rfl hA
      | cons a As => simp [hlen]
    rw [pyIndex_neg_one hlen1, hlen]

theorem resolveIdx_lt {A : List Char} (c : Char) (hA : A ≠ []) : resolveIdx A c < A.length := by
  rw [resolveIdx]
  cases hf : firstIdx A c with
  | some j => exact firstIdx_lt_length hf
  | none =>
    cases A with
    | nil => exact absurd rfl hA
    | cons a As => simp

theorem resolveIdx_getD {A : List Char} {c : Char} (h : c ∈ A) :
    A.getD (resolveIdx A c) ' ' = c := by
  rw [resolveIdx]
  cases hf : firstIdx A c with
  | some j => exact firstIdx_getD hf
  | none => exact absurd (firstIdx_none_iff.mp hf) (by simp [h])

theorem pyGet_ALPHA {A : List Char} (c : Char) (hA : A ≠ []) {P : List Nat}
    (hlen : P.length = A.length) :
    pyGet P (ALPHA A c) = some (P.getD (resolveIdx A c) 0) := by
  rw [pyGet, pyIndex_ALPHA c hA hlen]
  rfl

theorem pySet_ALPHA {A : List Char} (c : Char) (hA : A ≠ []) {P : List Nat} (v : Nat)
    (hlen : P.length = A.length) :
    pySet P (ALPHA A c) v = some (P.set (resolveIdx A c) v) := by
  rw [pySet, pyIndex_ALPHA c hA hlen]
  rfl

theorem testBit_getD_set_or (P : List Nat) (j0 : Nat) (hj0 : j0 < P.length) (w j d : Nat) :
    (Nat.testBit ((P.set j0 (P.getD j0 0 ||| (1 <<< w))).getD j 0) d = true) ↔
      (Nat.testBit (P.getD j 0) d = true ∨ (j = j0 ∧ d = w)) := by
  by_cases hj : j = j0
  · subst hj
    rw [getD_set_self _ _ _ hj0, Nat.testBit_or, Nat.one_shiftLeft, Nat.testBit_two_pow]
    simp only [Bool.or_eq_true, decide_eq_true_eq]
    constructor
    · rintro (h | h)
      · exact Or.inl h
      · refine Or.inr ⟨?_, h.symm⟩
        trivial
    · rintro (h | ⟨-, h⟩)
      · exact Or.inl h
      · exact Or.inr h.symm
  · rw [getD_set_ne _ _ _ _ fun h => hj h.symm]
    simp [hj]

/-! ### Helper lemmas: the pattern table -/

theorem initPgo_spec {A : List Char} (hA : A ≠ []) :
    ∀ (p : List Char) (P : List Nat) (i0 : Nat), P.length = A.length →
    ∃ P1, initPgo A P p i0 = some P1 ∧ P1.length = P.length ∧
      ∀ j d, Nat.testBit (P1.getD j 0) d = true ↔
        (Nat.testBit (P.getD j 0) d = true ∨
          ∃ r, r < p.length ∧ d = i0 + r ∧ resolveIdx A (p.getD r ' ') = j) := by
  intro p
  induction p with
  | nil =>
    intro P i0 hlen
    refine ⟨P, rfl, rfl, fun j d => ?_⟩
    simp [initPgo]
  | cons c cs ih =>
    intro P i0 hlen
    have hg := pyGet_ALPHA c hA hlen
    have hs := pySet_ALPHA c hA (v := P.getD (resolveIdx A c) 0 ||| (1 <<< i0)) hlen
    have hj0 : resolveIdx A c < P.length := hlen ▸ resolveIdx_lt c hA
    have hlen1 : (P.set (resolveIdx A c) (P.getD (resolveIdx A c) 0 ||| (1 <<< i0))).length
        = A.length := by
      rw [List.length_set]; exact hlen
    obtain ⟨P2, heq, hlen2, hbits⟩ :=
      ih (P.set (resolveIdx A c) (P.getD (resolveIdx A c) 0 ||| (1 <<< i0))) (i0 + 1) hlen1
    refine ⟨P2, ?_, ?_, ?_⟩
    · simp only [initPgo, hg, hs]
      exact heq
    · rw [hlen2, List.length_set]
    · intro j d
      rw [hbits j d]
      have hset := testBit_getD_set_or P (resolveIdx A c) hj0 i0 j d
      constructor
      · rintro (h1 | ⟨r, hr, rfl, hres⟩)
        · rcases hset.mp h1 with h2 | ⟨hj, hd⟩
          · exact Or.inl h2
          · refine Or.inr ⟨0, by simp, by omega, ?_⟩
            simpa using hj.symm
        · refine Or.inr ⟨r + 1, by simpa using hr, by omega, ?_⟩
          simpa using hres
      · rintro (h1 | ⟨r, hr, hd, hres⟩)
        · exact Or.inl (hset.mpr (Or.inl h1))
        · cases r with
          | zero =>
            refine Or.inl (hset.mpr (Or.inr ⟨?_, by omega⟩))
            simp only [List.getD_cons_zero] at hres
            exact hres.symm
          | succ r =>
            refine Or.inr ⟨r, by simp at hr; omega, by omega, ?_⟩
            simpa using hres

theorem initialize_P_spec {A : List Char} (hA : A ≠ []) (p : List Char) :
    ∃ P1, initialize_P A (List.replicate A.length 0) p = some P1 ∧
      P1.length = A.length ∧
      ∀ j d, Nat.testBit (P1.getD j 0) d = true ↔
        (d < p.length ∧ resolveIdx A (p.getD d ' ') = j) := by
  obtain ⟨P1, heq, hlen, hbits⟩ :=
    initPgo_spec hA p (List.replicate A.length 0) 0 (by simp)
  refine ⟨P1, heq, by simpa using hlen, fun j d => ?_⟩
  rw [hbits j d]
  constructor
  · rintro (h | ⟨r, hr, rfl, hres⟩)
    · rw [getD_replicate_zero] at h
      simp at h
    · exact ⟨by omega, by simpa using hres⟩
  · rintro ⟨hd, hres⟩
    exact Or.inr ⟨d, hd, by omega, hres⟩

/-! ### Helper lemmas: the text table -/

theorem initTgo_spec (A : List Char) (m : Nat) (t : List Char) :
    ∀ (ts : List Char) (T : List Nat) (i0 : Nat),
      T.length = A.length →
      (∀ r, r < ts.length → i0 + r < t.length ∧ ts.getD r ' ' = t.getD (i0 + r) ' ') →
      (∀ j d, Nat.testBit (T.getD j 0) d = true →
        d < t.length ∧ t.getD d ' ' = A.getD j ' ') →
      ∃ T1, initTgo A m T ts i0 = some T1 ∧ T1.length = T.length ∧
        ∀ j d, Nat.testBit (T1.getD j 0) d = true →
          d < t.length ∧ t.getD d ' ' = A.getD j ' ' := by
  intro ts
  induction ts with
  | nil =>
    intro T i0 hlen hsuf hT
    exact ⟨T, rfl, rfl, hT⟩
  | cons c cs ih =>
    intro T i0 hlen hsuf hT
    rw [initTgo]
    by_cases hbr : (i0 : Int) ≥ (m : Int) - 2
    · rw [if_pos hbr]
      exact ⟨T, rfl, rfl, hT⟩
    · rw [if_neg hbr]
      by_cases habs : ALPHA A c = -1
      · rw [if_pos habs]
        exact ih T (i0 + 1) hlen
          (fun r hr => by
            have := hsuf (r + 1) (by simpa using hr)
            constructor
            · omega
            · have h2 := this.2
              simp only [List.getD_cons_succ] at h2
              rw [h2]
              congr 1
              omega)
          hT
      · rw [if_neg habs]
        have hA : A ≠ [] := by
          intro hAe
          subst hAe
          exact habs rfl
        have hg := pyGet_ALPHA c hA hlen
        have hs := pySet_ALPHA c hA (v := T.getD (resolveIdx A c) 0 ||| (1 <<< i0)) hlen
        have hj0 : resolveIdx A c < T.length := hlen ▸ resolveIdx_lt c hA
        have hcmem : c ∈ A := by
          by_contra hc
          exact habs (ALPHA_eq_neg_one_iff.mpr hc)
        have hlen1 : (T.set (resolveIdx A c)
            (T.getD (resolveIdx A c) 0 ||| (1 <<< i0))).length = A.length := by
          rw [List.length_set]; exact hlen
        have hT1 : ∀ j d,
            Nat.testBit ((T.set (resolveIdx A c)
              (T.getD (resolveIdx A c) 0 ||| (1 <<< i0))).getD j 0) d = true →
            d < t.length ∧ t.getD d ' ' = A.getD j ' ' := by
          intro j d hbit
          rcases (testBit_getD_set_or T (resolveIdx A c) hj0 i0 j d).mp hbit with h | ⟨hj, hd⟩
          · exact hT j d h
          · have h0 := hsuf 0 (by simp)
            have h2 := h0.2
            simp only [List.getD_cons_zero] at h2
            rw [show i0 + 0 = i0 by omega] at h2
            rw [hj, hd]
            refine ⟨by omega, ?_⟩
            rw [resolveIdx_getD hcmem]
            exact h2.symm
        obtain ⟨T1, heq, hlen2, hT2⟩ :=
          ih (T.set (resolveIdx A c) (T.getD (resolveIdx A c) 0 ||| (1 <<< i0))) (i0 + 1)
            hlen1
            (fun r hr => by
              have := hsuf (r + 1) (by simpa using hr)
              constructor
              · omega
              · have h2 := this.2
                simp only [List.getD_cons_succ] at h2
                rw [h2]
                congr 1
                omega)
            hT1
        refine ⟨T1, ?_, ?_, hT2⟩
        · simp only [hg, hs]
          exact heq
        · rw [hlen2, List.length_set]

theorem initialize_T_spec (A : List Char) (t : List Char) (m : Nat) :
    ∃ T1, initialize_T A (List.replicate A.length 0) t m = some T1 ∧
      T1.length = A.length ∧
      ∀ j d, Nat.testBit (T1.getD j 0) d = true →
        d < t.length ∧ t.getD d ' ' = A.getD j ' ' := by
  obtain ⟨T1, heq, hlen, hT⟩ :=
    initTgo_spec A m t t (List.replicate A.length 0) 0 (by simp)
      (fun r hr => ⟨by omega, by rw [show (0 : Nat) + r = r by omega]⟩)
      (fun j d hbit => by rw [getD_replicate_zero] at hbit; simp at hbit)
  exact ⟨T1, heq, by simpa using hlen, hT⟩

/-! ### Helper lemmas: the inner search loop -/

theorem searchInner_P (js : List Nat) :
    ∀ (st : MatchState) (s : Nat), (searchInner st s js).2.P = st.P := by
  induction js with
  | nil => intro st s; rfl
  | cons j js ih => intro st s; exact ih _ _

theorem searchInner_T_length (js : List Nat) :
    ∀ (st : MatchState) (s : Nat), (searchInner st s js).2.T.length = st.T.length := by
  induction js with
  | nil => intro st s; rfl
  | cons j js ih =>
    intro st s
    rw [searchInner, ih]
    simp

theorem searchInner_fst (js : List Nat) :
    ∀ (st : MatchState) (s : Nat), js.Pairwise (· ≠ ·) →
      (searchInner st s js).1 =
        s + ((js.map fun j =>
          popcount ((st.P.getD j 0 ^^^ st.T.getD j 0) &&& st.P.getD j 0)).sum) := by
  induction js with
  | nil => intro st s _; simp [searchInner]
  | cons j js ih =>
    intro st s hpw
    rcases List.pairwise_cons.mp hpw with ⟨hne, hpw2⟩
    rw [searchInner, ih _ _ hpw2]
    have hmap : (js.map fun j1 =>
        popcount (((st.T.set j (st.T.getD j 0 >>> 1), st.P).2.getD j1 0 ^^^
          (st.T.set j (st.T.getD j 0 >>> 1)).getD j1 0) &&&
          (st.P.getD j1 0))) = js.map fun j1 =>
        popcount ((st.P.getD j1 0 ^^^ st.T.getD j1 0) &&& st.P.getD j1 0) := by
      apply List.map_congr_left
      intro a ha
      rw [getD_set_ne _ _ _ _ (hne a ha)]
    simp only [List.map, List.sum_cons]
    rw [show ({ st with T := st.T.set j (st.T.getD j 0 >>> 1)} : MatchState).P = st.P
      from rfl]
    have hmap2 : (js.map fun j1 =>
        popcount ((st.P.getD j1 0 ^^^
          (st.T.set j (st.T.getD j 0 >>> 1)).getD j1 0) &&& st.P.getD j1 0)) =
        js.map fun j1 =>
        popcount ((st.P.getD j1 0 ^^^ st.T.getD j1 0) &&& st.P.getD j1 0) := by
      apply List.map_congr_left
      intro a ha
      rw [getD_set_ne _ _ _ _ (hne a ha)]
    rw [hmap2]
    omega

theorem searchInner_T_getD (js : List Nat) :
    ∀ (st : MatchState) (s : Nat), js.Nodup → ∀ j,
      (searchInner st s js).2.T.getD j 0 =
        if j ∈ js then st.T.getD j 0 >>> 1 else st.T.getD j 0 := by
  induction js with
  | nil => intro st s _ j; simp [searchInner]
  | cons i js ih =>
    intro st s hnd j
    rcases List.nodup_cons.mp hnd with ⟨hni, hnd2⟩
    rw [searchInner, ih _ _ hnd2 j]
    by_cases hji : j = i
    · subst hji
      rw [if_neg (fun h => hni h), if_pos (List.mem_cons_self j js)]
      show (st.T.set j (st.T.getD j 0 >>> 1)).getD j 0 = st.T.getD j 0 >>> 1
      by_cases hlt : j < st.T.length
      · exact getD_set_self _ _ _ hlt
      · rw [List.set_eq_of_length_le (by omega), getD_oob _ _ (by omega)]
        rfl
    · by_cases hjs : j ∈ js
      · rw [if_pos hjs, if_pos (List.mem_cons_of_mem i hjs)]
        show (st.T.set i (st.T.getD i 0 >>> 1)).getD j 0 >>> 1 = st.T.getD j 0 >>> 1
        rw [getD_set_ne _ _ _ _ (fun h => hji h.symm)]
      · have hnc : j ∉ i :: js := by
          simp [List.mem_cons, hji, hjs]
        rw [if_neg hjs, if_neg hnc]
        exact getD_set_ne _ _ _ _ (fun h => hji h.symm)

/-! ### Helper lemmas: counting -/

theorem countP_range_eq_card_filter (M : Nat) (q : Nat → Bool) :
    (List.range M).countP q = ((Finset.range M).filter fun d => q d = true).card := by
  induction M with
  | zero => simp
  | succ M ih =>
    rw [List.range_succ, List.countP_append, ih, Finset.range_succ, Finset.filter_insert]
    by_cases hq : q M = true
    · rw [if_pos hq]
      rw [Finset.card_insert_of_not_mem (fun hm => by
        have := Finset.mem_filter.mp hm
        exact absurd this.1 (by simp))]
      simp [hq]
    · rw [if_neg hq]
      simp [hq]

theorem sum_range_eq_list_sum (n : Nat) (f : Nat → Nat) :
    (∑ j ∈ Finset.range n, f j) = ((List.range n).map f).sum := by
  induction n with
  | zero => simp
  | succ n ih => rw [Finset.sum_range_succ, List.range_succ, List.map_append, List.sum_append, ih]; simp

/-! ### Helper lemmas: the outer search loop -/

theorem appendStep_P (A t : List Char) (m i : Nat) (st : MatchState) :
    (appendStep A t m i st).P = st.P := by
  rw [appendStep]
  split <;> rfl

theorem appendStep_T_length (A t : List Char) (m i : Nat) (st : MatchState) :
    (appendStep A t m i st).T.length = st.T.length := by
  rw [appendStep]
  split
  · rfl
  · simp

theorem searchLoop_P (A t : List Char) (m k sigma : Nat) :
    ∀ (is : List Nat) (st : MatchState),
      (searchLoop A t m k sigma is st).2.P = st.P := by
  intro is
  induction is with
  | nil => intro st; rfl
  | cons i is ih =>
    intro st
    rw [searchLoop]
    split
    · show (searchLoop A t m k sigma is _).2.P = st.P
      rw [ih, searchInner_P, appendStep_P]
    · show (searchLoop A t m k sigma is _).2.P = st.P
      rw [ih, searchInner_P, appendStep_P]

theorem searchLoop_pos_mem (A t : List Char) (m k sigma : Nat) :
    ∀ (is : List Nat) (st : MatchState),
      ∀ r ∈ (searchLoop A t m k sigma is st).1, ∃ i ∈ is, r.position = i + 1 - m := by
  intro is
  induction is with
  | nil => intro st r hr; simp [searchLoop] at hr
  | cons i is ih =>
    intro st r hr
    rw [searchLoop] at hr
    split at hr
    · rcases List.mem_cons.mp hr with hr0 | hr1
      · subst hr0
        exact ⟨i, List.mem_cons_self i is, rfl⟩
      · obtain ⟨i1, hi1, hpos⟩ := ih _ r hr1
        exact ⟨i1, List.mem_cons_of_mem i hi1, hpos⟩
    · obtain ⟨i1, hi1, hpos⟩ := ih _ r hr
      exact ⟨i1, List.mem_cons_of_mem i hi1, hpos⟩

theorem searchLoop_pairwise (A t : List Char) (m k sigma : Nat) :
    ∀ (is : List Nat) (st : MatchState), is.Pairwise (· < ·) →
      (∀ i ∈ is, m - 1 ≤ i) →
      List.Pairwise (fun a b => a.position < b.position)
        (searchLoop A t m k sigma is st).1 := by
  intro is
  induction is with
  | nil => intro st _ _; simp [searchLoop]
  | cons i is ih =>
    intro st hpw hge
    rcases List.pairwise_cons.mp hpw with ⟨hlt, hpw2⟩
    have hge2 : ∀ i1 ∈ is, m - 1 ≤ i1 := fun i1 hi1 => hge i1 (List.mem_cons_of_mem i hi1)
    have hgei : m - 1 ≤ i := hge i (List.mem_cons_self i is)
    rw [searchLoop]
    split
    · refine List.pairwise_cons.mpr ⟨?_, ih _ hpw2 hge2⟩
      intro r hr
      obtain ⟨i1, hi1, hpos⟩ := searchLoop_pos_mem A t m k sigma is _ r hr
      have hii1 : i < i1 := hlt i1 hi1
      show i + 1 - m < r.position
      rw [hpos]
      omega
    · exact ih _ hpw2 hge2

/-! ### Helper lemmas: one alignment's mismatch count -/

theorem getD_mem_char (p : List Char) (d : Nat) (h : d < p.length) : p.getD d ' ' ∈ p := by
  rw [List.getD_eq_getElem p ' ' h]
  exact List.getElem_mem h

theorem window_getD (t : List Char) (off m d : Nat) (hd : d < m) :
    ((t.drop off).take m).getD d ' ' = t.getD (off + d) ' ' := by
  rw [List.getD_eq_getElem?_getD, List.getD_eq_getElem?_getD,
    List.getElem?_take_of_lt hd, List.getElem?_drop]

theorem hamming_le_inner (A t p : List Char) (P0 T1 : List Nat) (off : Nat)
    (hA : A ≠ [])
    (hall : ∀ c ∈ p, c ∈ A)
    (hP : ∀ j d, Nat.testBit (P0.getD j 0) d = true ↔
      (d < p.length ∧ resolveIdx A (p.getD d ' ') = j))
    (hT : ∀ j d, Nat.testBit (T1.getD j 0) d = true →
      off + d < t.length ∧ t.getD (off + d) ' ' = A.getD j ' ') :
    hammingRef A p ((t.drop off).take p.length) ≤
      ((List.range A.length).map fun j =>
        popcount ((P0.getD j 0 ^^^ T1.getD j 0) &&& P0.getD j 0)).sum := by
  classical
  have hmemA : ∀ d, d < p.length → p.getD d ' ' ∈ A :=
    fun d hd => hall _ (getD_mem_char p d hd)
  have hcount : hammingRef A p ((t.drop off).take p.length) =
      (List.range p.length).countP fun d =>
        decide (t.getD (off + d) ' ' ≠ p.getD d ' ') := by
    rw [hammingRef]
    apply List.countP_congr
    intro d hd
    have hdlt : d < p.length := List.mem_range.mp hd
    rw [window_getD t off p.length d hdlt]
    simp only [Bool.or_eq_true, Bool.not_eq_true', decide_eq_false_iff_not,
      decide_eq_true_eq]
    constructor
    · rintro ((h | h) | h)
      · exact absurd (hmemA d hdlt) h
      · intro he
        apply h
        rw [he]
        exact hmemA d hdlt
      · intro he
        exact h he.symm
    · intro h
      exact Or.inr fun he => h he.symm
  rw [hcount, countP_range_eq_card_filter]
  set Mis := (Finset.range p.length).filter
    (fun d => decide (t.getD (off + d) ' ' ≠ p.getD d ' ') = true) with hMis
  have hsub : Mis ⊆ (Finset.range A.length).biUnion
      (fun j => Mis.filter fun d => resolveIdx A (p.getD d ' ') = j) := by
    intro d hd
    apply Finset.mem_biUnion.mpr
    refine ⟨resolveIdx A (p.getD d ' '), Finset.mem_range.mpr (resolveIdx_lt _ hA), ?_⟩
    exact Finset.mem_filter.mpr ⟨hd, rfl⟩
  have hstep1 : Mis.card ≤
      ∑ j ∈ Finset.range A.length,
        (Mis.filter fun d => resolveIdx A (p.getD d ' ') = j).card :=
    le_trans (Finset.card_le_card hsub) Finset.card_biUnion_le
  have hstep2 : ∀ j, (Mis.filter fun d => resolveIdx A (p.getD d ' ') = j).card ≤
      popcount ((P0.getD j 0 ^^^ T1.getD j 0) &&& P0.getD j 0) := by
    intro j
    apply card_le_popcount
    intro d hd
    rcases Finset.mem_filter.mp hd with ⟨hdM, hdj⟩
    rcases Finset.mem_filter.mp hdM with ⟨hdr, hdneq⟩
    have hdlt : d < p.length := Finset.mem_range.mp hdr
    have htneq : t.getD (off + d) ' ' ≠ p.getD d ' ' := of_decide_eq_true hdneq
    have hPbit : Nat.testBit (P0.getD j 0) d = true := (hP j d).mpr ⟨hdlt, hdj⟩
    have hTbit : Nat.testBit (T1.getD j 0) d = false := by
      by_contra hc
      have hc2 : Nat.testBit (T1.getD j 0) d = true := by
        cases h2 : Nat.testBit (T1.getD j 0) d
        · exact absurd h2 hc
        · rfl
      have := (hT j d hc2).2
      rw [← hdj, resolveIdx_getD (hmemA d hdlt)] at this
      exact htneq this
    rw [Nat.testBit_and, Nat.testBit_xor, hPbit, hTbit]
    rfl
  calc Mis.card ≤ ∑ j ∈ Finset.range A.length,
        (Mis.filter fun d => resolveIdx A (p.getD d ' ') = j).card := hstep1
    _ ≤ ∑ j ∈ Finset.range A.length,
        popcount ((P0.getD j 0 ^^^ T1.getD j 0) &&& P0.getD j 0) :=
      Finset.sum_le_sum fun j _ => hstep2 j
    _ = ((List.range A.length).map fun j =>
        popcount ((P0.getD j 0 ^^^ T1.getD j 0) &&& P0.getD j 0)).sum :=
      sum_range_eq_list_sum A.length _

/-! ### Helper lemmas: the window invariant through the search -/

theorem appendStep_sound (A t : List Char) (p : List Char) (i : Nat) (st : MatchState)
    (hm : 1 ≤ p.length) (hge : p.length - 1 ≤ i) (hi : i < t.length)
    (hTlen : st.T.length = A.length)
    (hT : ∀ j d, Nat.testBit (st.T.getD j 0) d = true →
      (i + 1 - p.length) + d < t.length ∧
      t.getD ((i + 1 - p.length) + d) ' ' = A.getD j ' ') :
    ∀ j d, Nat.testBit ((appendStep A t p.length i st).T.getD j 0) d = true →
      (i + 1 - p.length) + d < t.length ∧
      t.getD ((i + 1 - p.length) + d) ' ' = A.getD j ' ' := by
  intro j d
  rw [appendStep]
  by_cases hx : ALPHA A (t.getD i ' ') = -1
  · rw [if_pos hx]
    exact hT j d
  · rw [if_neg hx]
    cases hf : firstIdx A (t.getD i ' ') with
    | none => exact absurd (by rw [ALPHA, hf]) hx
    | some j1 =>
      have hxval : ALPHA A (t.getD i ' ') = (j1 : Int) := ALPHA_of_firstIdx hf
      have hj1 : j1 < st.T.length := hTlen ▸ firstIdx_lt_length hf
      rw [hxval]
      intro hbit
      rw [show ((j1 : Int)).toNat = j1 from by simp] at hbit
      rcases (testBit_getD_set_or st.T j1 hj1 (p.length - 1) j d).mp hbit with h | ⟨hj, hd⟩
      · exact hT j d h
      · subst hj
        subst hd
        have hoff : (i + 1 - p.length) + (p.length - 1) = i := by omega
        rw [hoff]
        exact ⟨hi, (firstIdx_getD hf).symm⟩

theorem searchLoop_hamming (A t p : List Char) (k : Nat) (P0 : List Nat)
    (hA : A ≠ [])
    (hall : ∀ c ∈ p, c ∈ A)
    (hm : 1 ≤ p.length)
    (hP : ∀ j d, Nat.testBit (P0.getD j 0) d = true ↔
      (d < p.length ∧ resolveIdx A (p.getD d ' ') = j)) :
    ∀ (c : Nat), ∀ (i : Nat) (T : List Nat),
      p.length - 1 ≤ i → i + c ≤ t.length → T.length = A.length →
      (∀ j d, Nat.testBit (T.getD j 0) d = true →
        (i + 1 - p.length) + d < t.length ∧
        t.getD ((i + 1 - p.length) + d) ' ' = A.getD j ' ') →
      ∀ r ∈ (searchLoop A t p.length k A.length (List.range' i c) ⟨P0, T⟩).1,
        hammingRef A p r.matched ≤ k := by
  intro c
  induction c with
  | zero => intro i T _ _ _ _ r hr; simp [searchLoop] at hr
  | succ c ih =>
    intro i T hge hilen hTlen hT r hr
    rw [List.range'_succ] at hr
    have hi : i < t.length := by omega
    have hndR : (List.range A.length).Pairwise (· ≠ ·) :=
      (List.nodup_range A.length)
    have hT1 := appendStep_sound A t p i ⟨P0, T⟩ hm hge hi hTlen hT
    have hT1len : (appendStep A t p.length i ⟨P0, T⟩).T.length = A.length := by
      rw [appendStep_T_length]
      exact hTlen
    -- the mismatch count the inner loop computes for this alignment
    have hfst := searchInner_fst (List.range A.length)
      (appendStep A t p.length i ⟨P0, T⟩) 0 hndR
    have hPP : (appendStep A t p.length i ⟨P0, T⟩).P = P0 := appendStep_P A t p.length i _
    have hbound :
        hammingRef A p ((t.drop (i + 1 - p.length)).take p.length) ≤
          (searchInner (appendStep A t p.length i ⟨P0, T⟩) 0 (List.range A.length)).1 := by
      rw [hfst, hPP]
      have := hamming_le_inner A t p P0 (appendStep A t p.length i ⟨P0, T⟩).T
        (i + 1 - p.length) hA hall hP hT1
      omega
    -- the tail of the loop keeps the invariant, shifted by one position
    have htail : ∀ r1 ∈ (searchLoop A t p.length k A.length (List.range' (i + 1) c)
        (searchInner (appendStep A t p.length i ⟨P0, T⟩) 0 (List.range A.length)).2).1,
        hammingRef A p r1.matched ≤ k := by
      have hT2len :
          (searchInner (appendStep A t p.length i ⟨P0, T⟩) 0 (List.range A.length)).2.T.length
            = A.length := by
        rw [searchInner_T_length]
        exact hT1len
      have hT2 : ∀ j d,
          Nat.testBit ((searchInner (appendStep A t p.length i ⟨P0, T⟩) 0
            (List.range A.length)).2.T.getD j 0) d = true →
          ((i + 1) + 1 - p.length) + d < t.length ∧
          t.getD (((i + 1) + 1 - p.length) + d) ' ' = A.getD j ' ' := by
        intro j d hbit
        rw [searchInner_T_getD (List.range A.length) _ 0 (List.nodup_range A.length) j]
          at hbit
        by_cases hjmem : j ∈ List.range A.length
        · rw [if_pos hjmem, Nat.testBit_shiftRight] at hbit
          have hres := hT1 j (1 + d) hbit
          have harith : (i + 1 - p.length) + (1 + d) = ((i + 1) + 1 - p.length) + d := by
            omega
          rw [harith] at hres
          exact hres
        · rw [if_neg hjmem] at hbit
          have hjge : A.length ≤ j := by
            by_contra hc
            exact hjmem (List.mem_range.mpr (by omega))
          rw [getD_oob _ _ (by omega)] at hbit
          simp at hbit
      have hst2 : (searchInner (appendStep A t p.length i ⟨P0, T⟩) 0
          (List.range A.length)).2 =
          ⟨P0, (searchInner (appendStep A t p.length i ⟨P0, T⟩) 0
            (List.range A.length)).2.T⟩ := by
        have h1 : (searchInner (appendStep A t p.length i ⟨P0, T⟩) 0
            (List.range A.length)).2.P = P0 := by
          rw [searchInner_P, hPP]
        calc (searchInner (appendStep A t p.length i ⟨P0, T⟩) 0 (List.range A.length)).2
            = ⟨(searchInner (appendStep A t p.length i ⟨P0, T⟩) 0
                (List.range A.length)).2.P,
               (searchInner (appendStep A t p.length i ⟨P0, T⟩) 0
                (List.range A.length)).2.T⟩ := rfl
          _ = _ := by rw [h1]
      rw [hst2]
      exact ih (i + 1)
        (searchInner (appendStep A t p.length i ⟨P0, T⟩) 0 (List.range A.length)).2.T
        (by omega) (by omega) hT2len hT2
    rw [searchLoop] at hr
    split at hr
    · rcases List.mem_cons.mp hr with hr0 | hr1
      · subst hr0
        show hammingRef A p ((t.drop (i + 1 - p.length)).take p.length) ≤ k
        calc hammingRef A p ((t.drop (i + 1 - p.length)).take p.length)
            ≤ (searchInner (appendStep A t p.length i ⟨P0, T⟩) 0
              (List.range A.length)).1 := hbound
          _ ≤ k := by assumption
      · exact htail r hr1
    · exact htail r hr

/-! ### Claim theorems -/

/-- Claim C1: the spec's concrete scenario (alphabet "ACGT", pattern "ACGT",
k = 0, text "TTACGTTT") is required to produce exactly one match, at position
2 with 0 mismatches.  The code emits no match at all on this input: the
window encoder's `if i >= m-2: break` stops one character early, so text
offset m-2 = 2 (the 'A' of the only "ACGT" occurrence) is never encoded and
the alignment at position 2 is charged a phantom mismatch.  This theorem
evaluates the embedded code on the failing input. -/
theorem C1_code_eval :
    LTHS "ACGT".toList "ACGT".toList 0 "TTACGTTT".toList = some [] := by decide

/-- Claim C2: the window encoder is claimed to encode exactly the first m-1
text characters.  The code encodes only the first m-2 of them (`i >= m-2`
breaks one iteration early).  On alphabet "A", text "A", m = 2 the claim
requires bit 0 of T[0] to be set, but the code leaves the table all zero;
on alphabet "ACGT", text "TTACGTTT", m = 4 the claim requires T =
[4, 0, 0, 3] (offsets 0, 1, 2 encoded) but the code produces [0, 0, 0, 3]
(offset 2 dropped).  This theorem evaluates the embedded code at both
failing inputs. -/
theorem C2_code_eval :
    initialize_T ['A'] [0] ['A'] 2 = some [0] ∧
    initialize_T "ACGT".toList [0, 0, 0, 0] "TTACGTTT".toList 4 = some [0, 0, 0, 3] :=
  ⟨by decide, by decide⟩

/-- Claim C3: the bit-parallel search is claimed to agree with the
brute-force per-character scan on all small inputs.  On alphabet "ACGT",
pattern "ACGT", k = 0, text "TTACGTTT" the brute-force scan finds the
occurrence (position 2, 0 mismatches) while the code emits nothing, because
of the off-by-one in the window encoder.  This theorem evaluates both sides
on the failing input. -/
theorem C3_code_eval :
    LTHS "ACGT".toList "ACGT".toList 0 "TTACGTTT".toList = some [] ∧
    bruteSearch "ACGT".toList "ACGT".toList 0 "TTACGTTT".toList = [(2, 0)] :=
  ⟨by decide, by decide⟩

/-- Claim C4 (counterexample): the claim says a pattern character absent from
the alphabet sets no bit in any entry of P.  With alphabet "AC" and pattern
"AX", the absent character 'X' at position 1 sets bit 1 of the LAST entry
(P becomes [1, 2]): `initialize_P` has no `j == -1` guard, so the write
targets `P[-1]`. -/
theorem C4_counterexample :
    initialize_P ['A', 'C'] [0, 0] ['A', 'X'] = some [1, 2] ∧
    Nat.testBit 2 1 = true :=
  ⟨by decide, by decide⟩

/-- Claim C4 (amended): for a non-empty alphabet, a pattern position `i`
whose character does not occur in the alphabet sets bit `i` of the LAST
entry `P[sigma - 1]` of the pattern table (Python's negative index `-1`),
rather than setting no bit; such a position can therefore contribute to the
mismatch count, counted against the alphabet's last symbol. -/
theorem C4_amended (A p : List Char) (i : Nat) (hA : A ≠ []) (hi : i < p.length)
    (habs : p.getD i ' ' ∉ A) :
    ∃ P1, initialize_P A (List.replicate A.length 0) p = some P1 ∧
      Nat.testBit (P1.getD (A.length - 1) 0) i = true := by
  obtain ⟨P1, heq, hlen, hbits⟩ := initialize_P_spec hA p
  refine ⟨P1, heq, ?_⟩
  apply (hbits (A.length - 1) i).mpr
  refine ⟨hi, ?_⟩
  have h1 : firstIdx A (p.getD i ' ') = none := firstIdx_none_iff.mpr habs
  rw [resolveIdx, h1]

/-- Witness for C4: the amended statement applied to alphabet "AC", pattern
"AX", position 1. -/
theorem C4_witness :
    ∃ P1, initialize_P ['A', 'C'] (List.replicate 2 0) ['A', 'X'] = some P1 ∧
      Nat.testBit (P1.getD 1 0) 1 = true :=
  C4_amended ['A', 'C'] ['A', 'X'] 1 (by decide) (by decide) (by decide)

/-- Claim C5 (counterexample): the claim says every emitted match has
reference Hamming distance at most k, where a position whose pattern or text
character is outside the alphabet counts as a mismatch.  With alphabet "A",
pattern "X", k = 0, text "A", the code emits a match with 0 recorded
mismatches (the absent 'X' is encoded as the last alphabet symbol 'A' and so
matches the text), yet the reference distance of the matched substring is
1 > 0. -/
theorem C5_counterexample :
    LTHS ['A'] ['X'] 0 ['A'] = some [⟨0, 0, ['A']⟩] ∧
    hammingRef ['A'] ['X'] ['A'] = 1 :=
  ⟨by decide, by decide⟩

/-- Claim C5 (amended): for valid inputs whose pattern characters all occur
in the alphabet, every emitted match's substring has reference Hamming
distance at most k from the pattern (positions whose text character is
outside the alphabet count as mismatches).  The restriction to in-alphabet
patterns is forced by the counterexample: a pattern character absent from
the alphabet is encoded as the alphabet's last symbol and can be
under-counted. -/
theorem C5_amended (A p : List Char) (k : Nat) (t : List Char) (rs : List MatchResult)
    (hall : ∀ c ∈ p, c ∈ A) (hm : 1 ≤ p.length) (hmn : p.length ≤ t.length)
    (hk : k < p.length) (hrun : LTHS A p k t = some rs) :
    ∀ r ∈ rs, hammingRef A p r.matched ≤ k := by
  have hA : A ≠ [] := by
    cases p with
    | nil => simp at hm
    | cons c cs =>
      have hcA := hall c (List.mem_cons_self c cs)
      intro hAe
      rw [hAe] at hcA
      simp at hcA
  obtain ⟨P0, hPeq, hPlen, hPbits⟩ := initialize_P_spec hA p
  obtain ⟨T0, hTeq, hTlen, hTbits⟩ := initialize_T_spec A t p.length
  simp only [LTHS, hPeq, hTeq, Option.some.injEq] at hrun
  rw [← hrun, search, searchIndices]
  apply searchLoop_hamming A t p k P0 hA hall hm hPbits
    (t.length - (p.length - 1)) (p.length - 1) T0 (Nat.le_refl _) (by omega) hTlen
  intro j d hbit
  have hres := hTbits j d hbit
  have hoff : (p.length - 1) + 1 - p.length = 0 := by omega
  rw [hoff]
  constructor
  · omega
  · rw [Nat.zero_add]
    exact hres.2

/-- Witness for C5: the amended statement applied to alphabet "A", pattern
"AA", k = 1, text "AAA", at the first emitted match. -/
theorem C5_witness : hammingRef ['A'] ['A', 'A'] ['A', 'A'] ≤ 1 :=
  C5_amended ['A'] ['A', 'A'] 1 ['A', 'A', 'A']
    [⟨0, 1, ['A', 'A']⟩, ⟨1, 0, ['A', 'A']⟩]
    (by decide) (by decide) (by decide) (by decide) (by decide)
    ⟨0, 1, ['A', 'A']⟩ (by decide)

/-! ### Claim C6: replacing absent pattern characters by the last symbol -/

theorem initPgo_patch (A : List Char) (hA : A ≠ [])
    (hlast : ALPHA A (lastChar A) = ((A.length - 1 : Nat) : Int)) :
    ∀ (p : List Char) (P : List Nat) (i0 : Nat), P.length = A.length →
      initPgo A P p i0 = initPgo A P (patchPattern A p) i0 := by
  intro p
  induction p with
  | nil => intro P i0 _; rfl
  | cons c cs ih =>
    intro P i0 hlen
    have hlen1 : 1 ≤ A.length := by
      cases A with
      | nil => exact absurd rfl hA
      | cons a As => simp
    show initPgo A P (c :: cs) i0 =
      initPgo A P ((if c ∈ A then c else lastChar A) :: List.map _ cs) i0
    by_cases hc : c ∈ A
    · rw [if_pos hc]
      have hg := pyGet_ALPHA c hA hlen
      have hs := pySet_ALPHA c hA
        (v := P.getD (resolveIdx A c) 0 ||| (1 <<< i0)) hlen
      simp only [initPgo, hg, hs]
      exact ih _ _ (by rw [List.length_set]; exact hlen)
    · rw [if_neg hc]
      have habs : ALPHA A c = -1 := ALPHA_eq_neg_one_iff.mpr hc
      have hres : resolveIdx A c = A.length - 1 := by
        rw [resolveIdx, firstIdx_none_iff.mpr hc]
      have hg : pyGet P (ALPHA A c) = some (P.getD (A.length - 1) 0) := by
        rw [pyGet_ALPHA c hA hlen, hres]
      have hs : pySet P (ALPHA A c) (P.getD (A.length - 1) 0 ||| (1 <<< i0)) =
          some (P.set (A.length - 1) (P.getD (A.length - 1) 0 ||| (1 <<< i0))) := by
        rw [pySet_ALPHA c hA (v := P.getD (A.length - 1) 0 ||| (1 <<< i0)) hlen, hres]
      have hg2 : pyGet P (ALPHA A (lastChar A)) = some (P.getD (A.length - 1) 0) := by
        rw [pyGet, hlast, pyIndex_of_lt (by omega)]
        rfl
      have hs2 : pySet P (ALPHA A (lastChar A))
          (P.getD (A.length - 1) 0 ||| (1 <<< i0)) =
          some (P.set (A.length - 1) (P.getD (A.length - 1) 0 ||| (1 <<< i0))) := by
        rw [pySet, hlast, pyIndex_of_lt (by omega)]
        rfl
      simp only [initPgo, hg, hs, hg2, hs2]
      exact ih _ _ (by rw [List.length_set]; exact hlen)

/-- Claim C6 (counterexample): the claim fails for alphabets in which the
last symbol also occurs earlier.  With alphabet "AA", pattern "X", k = 0,
text "A", the original pattern's absent 'X' is written to `P[-1]` (the
second entry) while the patched pattern 'A' resolves to the FIRST
occurrence (the first entry), and the two searches produce different
results. -/
theorem C6_counterexample :
    LTHS ['A', 'A'] ['X'] 0 ['A'] ≠
      LTHS ['A', 'A'] (patchPattern ['A', 'A'] ['X']) 0 ['A'] := by decide

/-- Claim C6 (amended): for every non-empty alphabet whose last symbol's
first occurrence is the last position (in particular every duplicate-free
alphabet), pattern, threshold and text, the search result is unchanged when
every pattern character absent from the alphabet is replaced by the
alphabet's last symbol — Python's negative index `-1` makes the two pattern
tables identical. -/
theorem C6_amended (A p : List Char) (k : Nat) (t : List Char) (hA : A ≠ [])
    (hlast : ALPHA A (lastChar A) = ((A.length - 1 : Nat) : Int)) :
    LTHS A p k t = LTHS A (patchPattern A p) k t := by
  have hplen : (patchPattern A p).length = p.length := by
    rw [patchPattern, List.length_map]
  simp only [LTHS, initialize_P, hplen]
  rw [← initPgo_patch A hA hlast p (List.replicate A.length 0) 0 (by simp)]

/-- Witness for C6: the amended statement applied to alphabet "AC", pattern
"AX", k = 0, text "AC". -/
theorem C6_witness :
    LTHS ['A', 'C'] ['A', 'X'] 0 ['A', 'C'] =
      LTHS ['A', 'C'] (patchPattern ['A', 'C'] ['A', 'X']) 0 ['A', 'C'] :=
  C6_amended ['A', 'C'] ['A', 'X'] 0 ['A', 'C'] (by decide) (by decide)

/-! ### Claims C7 to C10 -/

/-- Claim C7: for 1 ≤ m ≤ n the matcher visits exactly n - m + 1 text
indices (exactly the indices i with m - 1 ≤ i < n, in increasing order), the
loop is a fold over that finite list (so it terminates), and the emitted
results carry strictly increasing positions, so no emitted result is ever
revisited or revised. -/
theorem C7_steps_and_order (A p : List Char) (k : Nat) (t : List Char)
    (hm : 1 ≤ p.length) (hmn : p.length ≤ t.length) :
    (searchIndices p.length t.length).length = t.length - p.length + 1 ∧
    (∀ i, i ∈ searchIndices p.length t.length ↔ p.length - 1 ≤ i ∧ i < t.length) ∧
    ∀ rs, LTHS A p k t = some rs →
      List.Pairwise (fun a b => a.position < b.position) rs := by
  refine ⟨?_, ?_, ?_⟩
  · rw [searchIndices, List.length_range']
    omega
  · intro i
    rw [searchIndices, List.mem_range'_1]
    omega
  · intro rs hrun
    rw [LTHS] at hrun
    cases hP : initialize_P A (List.replicate A.length 0) p with
    | none => rw [hP] at hrun; simp at hrun
    | some P0 =>
      cases hT : initialize_T A (List.replicate A.length 0) t p.length with
      | none => rw [hP, hT] at hrun; simp at hrun
      | some T0 =>
        rw [hP, hT] at hrun
        simp only [Option.some.injEq] at hrun
        rw [← hrun, search]
        apply searchLoop_pairwise
        · rw [searchIndices]
          exact List.pairwise_lt_range' _ _
        · intro i hi
          rw [searchIndices, List.mem_range'_1] at hi
          omega

/-- Witness for C7: the statement applied to alphabet "A", pattern "AA",
k = 1, text "AAA", whose run emits matches at positions 0 and 1. -/
theorem C7_witness :
    (searchIndices 2 3).length = 3 - 2 + 1 ∧
    List.Pairwise (fun a b => a.position < b.position)
      [(⟨0, 1, ['A', 'A']⟩ : MatchResult), ⟨1, 0, ['A', 'A']⟩] := by
  have h := C7_steps_and_order ['A'] ['A', 'A'] 1 ['A', 'A', 'A'] (by decide) (by decide)
  exact ⟨h.1, h.2.2 _ (by decide)⟩

/-- Claim C8: the pattern table is read-only during the search stage: the
final state of the search carries exactly the `P` it was entered with, for
every input — only the window table `T` is ever written. -/
theorem C8_pattern_table_frame (A : List Char) (sigma : Nat) (P T : List Nat)
    (t : List Char) (n m k : Nat) :
    (search A sigma P T t n m k).2.P = P := by
  rw [search]
  exact searchLoop_P A t m k sigma (searchIndices m n) ⟨P, T⟩

/-- Claim C9: the CLI layer exits with an error message (a non-zero exit
status), without running the core search, exactly when the pattern is longer
than the text or k is negative or at least the pattern length; otherwise it
invokes the core search on the parsed arguments. -/
theorem C9_cli (A p : List Char) (k : Int) (t : List Char) :
    ((∃ msg, cliMain A p k t = CLIOutcome.exitError msg) ↔
      (t.length < p.length ∨ k < 0 ∨ (p.length : Int) ≤ k)) ∧
    (¬(t.length < p.length ∨ k < 0 ∨ (p.length : Int) ≤ k) →
      cliMain A p k t = CLIOutcome.ran (LTHS A p k.toNat t)) := by
  constructor
  · constructor
    · rintro ⟨msg, hmsg⟩
      by_contra hc
      push_neg at hc
      rw [cliMain, if_neg (by omega), if_neg (by push_neg; omega)] at hmsg
      simp at hmsg
    · intro h
      rw [cliMain]
      by_cases h1 : p.length > t.length
      · rw [if_pos h1]
        exact ⟨_, rfl⟩
      · rw [if_neg h1]
        have h2 : k < 0 ∨ (p.length : Int) ≤ k := by
          rcases h with h | h | h
          · omega
          · exact Or.inl h
          · exact Or.inr h
        rw [if_pos h2]
        exact ⟨_, rfl⟩
  · intro h
    push_neg at h
    rw [cliMain, if_neg (by omega), if_neg (by push_neg; omega)]

/-- Witness for C9: the validation passes on alphabet "ACGT", pattern "AC",
k = 1, text "ACG", and the CLI invokes the core search. -/
theorem C9_witness :
    cliMain ['A', 'C', 'G', 'T'] ['A', 'C'] 1 ['A', 'C', 'G'] =
      CLIOutcome.ran (LTHS ['A', 'C', 'G', 'T'] ['A', 'C'] (Int.toNat 1) ['A', 'C', 'G']) :=
  (C9_cli ['A', 'C', 'G', 'T'] ['A', 'C'] 1 ['A', 'C', 'G']).2 (by decide)

/-- Claim C10: with an empty alphabet and a non-empty pattern, the pattern
encoder's unguarded write `P[-1] |= ...` is an out-of-range access on the
empty table — modelled as `none`, the uncaught `IndexError` — so the core
raises instead of returning an empty result sequence. -/
theorem C10_empty_alphabet (p : List Char) (k : Nat) (t : List Char) (hp : p ≠ []) :
    initialize_P [] (List.replicate ([] : List Char).length 0) p = none ∧
    LTHS [] p k t = none := by
  cases p with
  | nil => exact absurd rfl hp
  | cons c cs => exact ⟨rfl, rfl⟩

/-- Witness for C10: the empty alphabet with pattern "X". -/
theorem C10_witness :
    initialize_P [] (List.replicate ([] : List Char).length 0) ['X'] = none ∧
    LTHS [] ['X'] 0 [] = none :=
  C10_empty_alphabet ['X'] 0 [] (by decide)
